import Mathlib

/-!
Verification of the core algorithms of the cosmic-neural-network visualization
(src/script.js): the point sampler, the proximity connection builder, the
wheel-zoom accumulator, and the per-frame camera smoothing step.

Conventions of the embedding:
* The connection builder (script.js lines 122-137) compares Euclidean
  distances of generated positions against the threshold 15.  Positions are
  embedded with rational coordinates and the comparison `dist < 15` is
  embedded as `distSq < 15 ^ 2`, which is equivalent for non-negative
  distances; the lemma `close_iff_eDist` below proves that equivalence
  against the real Euclidean distance.
* The sampler and camera arithmetic (lines 69-82 and 186-196) use
  transcendental functions, embedded over the reals.
* `Math.random()` draws are modelled as explicit parameters `u` ranging over
  the unit interval.
-/

/-- A generated position: the three coordinates pushed into `positions`. -/
structure Pt where
  x : ℚ
  y : ℚ
  z : ℚ
deriving DecidableEq

/-- Squared Euclidean distance between two positions. -/
def distSq (p q : Pt) : ℚ :=
  (p.x - q.x) ^ 2 + (p.y - q.y) ^ 2 + (p.z - q.z) ^ 2

/-- The builder's proximity test `p1.distanceTo(p2) < CONFIG.connectionDistance`
with `connectionDistance = 15` (script.js line 130), stated on squared
distances. -/
def close (p q : Pt) : Bool :=
  decide (distSq p q < 15 ^ 2)

/-- Real Euclidean distance between two embedded positions. -/
noncomputable def eDist (p q : Pt) : ℝ :=
  Real.sqrt ((distSq p q : ℝ))

/-- The inner loop of the connection scan (script.js lines 126-136): walk the
indexed points `j > i` in order, emit every `j` closer than the threshold,
and stop once the per-`i` counter `c` exceeds 5 after an emission
(`if (connections > 5) break`). -/
def innerScan (p1 : Pt) : List (ℕ × Pt) → ℕ → List ℕ
  | [], _ => []
  | (j, p2) :: rest, c =>
    if close p1 p2 then
      if c + 1 > 5 then [j] else j :: innerScan p1 rest (c + 1)
    else
      innerScan p1 rest c

/-- The outer loop of the connection scan (script.js lines 122-137): for each
indexed point `i` in order, run the inner scan on the remaining points with
the counter reset to 0. -/
def buildAux : List (ℕ × Pt) → List (ℕ × ℕ)
  | [] => []
  | (i, p1) :: rest =>
      ((innerScan p1 rest 0).map fun j => (i, j)) ++ buildAux rest

/-- The connection builder: the list of index pairs `(i, j)` whose segments
are pushed into `linePositions`, in emission order. -/
def buildConnections (pts : List Pt) : List (ℕ × ℕ) :=
  buildAux pts.enum

/-- Lexicographic order on emitted index pairs: the order in which the nested
scan discovers connections. -/
def lexLt (a b : ℕ × ℕ) : Prop :=
  a.1 < b.1 ∨ (a.1 = b.1 ∧ a.2 < b.2)

/-- The wheel handler (script.js lines 169-172): accumulate `deltaY * 0.1`
into the target radius, then clamp to `[20, 200]`. -/
def wheelUpdate (tr dy : ℚ) : ℚ :=
  max 20 (min 200 (tr + dy * 0.1))

/-- One axis of the camera smoothing
`axis += (desired - axis) * 0.05` (script.js lines 192-194). -/
def smoothAxis (prev des : ℝ) : ℝ :=
  prev + (des - prev) * 0.05

/-- The per-frame camera update (script.js lines 186-194): orbit angle from
elapsed time and pointer offset, desired position on the orbit circle, and
exponential smoothing of each axis.  The state triple is `(x, y, z)`. -/
noncomputable def cameraStep (time mx my tr : ℝ) (p : ℝ × ℝ × ℝ) : ℝ × ℝ × ℝ :=
  let angle := time * 0.1 + mx * 0.01
  (smoothAxis p.1 (Real.sin angle * tr),
   smoothAxis p.2.1 my,
   smoothAxis p.2.2 (Real.cos angle * tr))

/-- Euclidean distance between two real triples. -/
noncomputable def dist3 (p q : ℝ × ℝ × ℝ) : ℝ :=
  Real.sqrt ((p.1 - q.1) ^ 2 + (p.2.1 - q.2.1) ^ 2 + (p.2.2 - q.2.2) ^ 2)

/-- The spherical sampling of one position (script.js lines 71-77), before the
vertical flattening: `r = 40 * cbrt(u1)`, `theta = u2 * pi * 2`,
`phi = acos(2 * u3 - 1)`, converted to Cartesian coordinates. -/
noncomputable def samplePos (u1 u2 u3 : ℝ) : ℝ × ℝ × ℝ :=
  let r := 40 * u1 ^ ((1 : ℝ) / 3)
  let theta := u2 * Real.pi * 2
  let phi := Real.arccos (2 * u3 - 1)
  (r * Real.sin phi * Real.cos theta,
   r * Real.sin phi * Real.sin theta,
   r * Real.cos phi)

/-- The vertical flattening `y *= 0.6` (script.js line 80). -/
noncomputable def flattenPos (p : ℝ × ℝ × ℝ) : ℝ × ℝ × ℝ :=
  (p.1, p.2.1 * 0.6, p.2.2)

/-- A fully generated point position: spherical sample then flattening. -/
noncomputable def genPoint (u1 u2 u3 : ℝ) : ℝ × ℝ × ℝ :=
  flattenPos (samplePos u1 u2 u3)

/-- Magnitude of a real triple. -/
noncomputable def norm3 (p : ℝ × ℝ × ℝ) : ℝ :=
  Real.sqrt (p.1 ^ 2 + p.2.1 ^ 2 + p.2.2 ^ 2)

/-- The three color categories of script.js lines 87-89. -/
inductive ColorCategory where
  | Rare
  | Accent
  | Base
deriving DecidableEq

/-- The color selection (script.js lines 85-89): one uniform draw, tested
against 0.9 first and 0.6 second. -/
def colorCategory (u : ℚ) : ColorCategory :=
  if u > 0.9 then ColorCategory.Rare
  else if u > 0.6 then ColorCategory.Accent
  else ColorCategory.Base

/-- The size draw `Math.random() * 2 + 1` (script.js line 92). -/
def pointSize (u : ℚ) : ℚ :=
  u * 2 + 1

/-! ### Helper lemmas about the connection scan -/

/-- The inner scan starting with counter `c ≤ 5` emits at most `6 - c`
indices: the counter is incremented on each emission and the loop breaks
once it exceeds 5. -/
theorem innerScan_length (p1 : Pt) (l : List (ℕ × Pt)) :
    ∀ c : ℕ, c ≤ 5 → (innerScan p1 l c).length + c ≤ 6 := by
  induction l with
  | nil => intro c hc; simp [innerScan]; omega
  | cons hd rest ih =>
    intro c hc
    obtain ⟨j, p2⟩ := hd
    by_cases h : close p1 p2 = true
    · by_cases h5 : c + 1 > 5
      · simp [innerScan, h, h5]; omega
      · have := ih (c + 1) (by omega)
        simp only [innerScan, h, if_true, h5, if_false, List.length_cons]
        omega
    · simpa [innerScan, h] using ih c hc

/-- The inner scan picks its output, in order, from the indices of the list
it walks. -/
theorem innerScan_sublist (p1 : Pt) (l : List (ℕ × Pt)) :
    ∀ c : ℕ, (innerScan p1 l c).Sublist (l.map Prod.fst) := by
  induction l with
  | nil => intro c; simp [innerScan]
  | cons hd rest ih =>
    intro c
    obtain ⟨j, p2⟩ := hd
    by_cases h : close p1 p2 = true
    · by_cases h5 : c + 1 > 5
      · simp only [innerScan, h, if_true, h5, List.map_cons]
        exact List.Sublist.cons₂ j (List.nil_sublist _)
      · simp only [innerScan, h, if_true, h5, if_false, List.map_cons]
        exact List.Sublist.cons₂ j (ih (c + 1))
    · simp only [innerScan, h, if_false, List.map_cons]
      exact List.Sublist.cons _ (ih c)

/-- Every index emitted by the inner scan belongs to the walked list and
passed the proximity test against `p1`. -/
theorem mem_innerScan (p1 : Pt) (l : List (ℕ × Pt)) :
    ∀ c j, j ∈ innerScan p1 l c → ∃ p2, (j, p2) ∈ l ∧ close p1 p2 = true := by
  induction l with
  | nil => intro c j hj; simp [innerScan] at hj
  | cons hd rest ih =>
    intro c j hj
    obtain ⟨j', p2⟩ := hd
    by_cases h : close p1 p2 = true
    · by_cases h5 : c + 1 > 5
      · simp only [innerScan, h, if_true, h5, List.mem_singleton] at hj
        exact ⟨p2, by simp [hj], h⟩
      · simp only [innerScan, h, if_true, h5, if_false, List.mem_cons] at hj
        rcases hj with rfl | hj
        · exact ⟨p2, by simp, h⟩
        · obtain ⟨q, hq, hcq⟩ := ih (c + 1) j hj
          exact ⟨q, List.mem_cons_of_mem _ hq, hcq⟩
    · simp only [innerScan, h, if_false] at hj
      obtain ⟨q, hq, hcq⟩ := ih c j hj
      exact ⟨q, List.mem_cons_of_mem _ hq, hcq⟩

/-- Every pair emitted by the outer scan consists of two indexed points of
the walked list whose positions passed the proximity test. -/
theorem mem_buildAux (l : List (ℕ × Pt)) :
    ∀ i j, (i, j) ∈ buildAux l →
      ∃ p1 p2, (i, p1) ∈ l ∧ (j, p2) ∈ l ∧ close p1 p2 = true := by
  induction l with
  | nil => intro i j h; simp [buildAux] at h
  | cons hd rest ih =>
    intro i j h
    obtain ⟨i2, p1⟩ := hd
    simp only [buildAux, List.mem_append, List.mem_map] at h
    rcases h with ⟨j2, hj2, heq⟩ | h
    · injection heq with hii hjj
      subst hii
      subst hjj
      obtain ⟨p2, hp2, hc⟩ := mem_innerScan p1 rest 0 j2 hj2
      exact ⟨p1, p2, List.mem_cons_self _ _, List.mem_cons_of_mem _ hp2, hc⟩
    · obtain ⟨q1, q2, h1, h2, hc⟩ := ih i j h
      exact ⟨q1, q2, List.mem_cons_of_mem _ h1, List.mem_cons_of_mem _ h2, hc⟩

/-- The first component of every emitted pair is an index of the walked
list. -/
theorem mem_buildAux_fst (l : List (ℕ × Pt)) (i j : ℕ)
    (h : (i, j) ∈ buildAux l) : i ∈ l.map Prod.fst := by
  obtain ⟨p1, _, h1, _, _⟩ := mem_buildAux l i j h
  exact List.mem_map_of_mem Prod.fst h1

/-- When the walked indices are strictly increasing, every emitted pair has
its first component strictly below its second: the inner scan only walks
indices that come after `i`. -/
theorem buildAux_fst_lt_snd (l : List (ℕ × Pt)) :
    (l.map Prod.fst).Pairwise (· < ·) →
      ∀ i j, (i, j) ∈ buildAux l → i < j := by
  induction l with
  | nil => intro _ i j h; simp [buildAux] at h
  | cons hd rest ih =>
    intro hl i j h
    obtain ⟨i2, p1⟩ := hd
    simp only [List.map_cons, List.pairwise_cons] at hl
    simp only [buildAux, List.mem_append, List.mem_map] at h
    rcases h with ⟨j2, hj2, heq⟩ | h
    · injection heq with hii hjj
      subst hii
      subst hjj
      exact hl.1 j2 (List.Sublist.mem hj2 (innerScan_sublist p1 rest 0))
    · exact ih hl.2 i j h

/-- When the walked indices are strictly increasing, the emitted pair list is
strictly increasing in the lexicographic order: `i` ascending over the outer
scan, `j` ascending within each `i`. -/
theorem buildAux_pairwise (l : List (ℕ × Pt)) :
    (l.map Prod.fst).Pairwise (· < ·) → (buildAux l).Pairwise lexLt := by
  induction l with
  | nil => intro _; simp [buildAux]
  | cons hd rest ih =>
    intro hl
    obtain ⟨i, p1⟩ := hd
    simp only [List.map_cons, List.pairwise_cons] at hl
    simp only [buildAux]
    rw [List.pairwise_append]
    refine ⟨?_, ih hl.2, ?_⟩
    · rw [List.pairwise_map]
      have hseg : (innerScan p1 rest 0).Pairwise (· < ·) :=
        List.Pairwise.sublist (innerScan_sublist p1 rest 0) hl.2
      exact hseg.imp fun hab => Or.inr ⟨rfl, hab⟩
    · intro a ha b hb
      simp only [List.mem_map] at ha
      obtain ⟨j, hj, rfl⟩ := ha
      obtain ⟨b1, b2⟩ := b
      have hb1 : b1 ∈ rest.map Prod.fst := mem_buildAux_fst rest b1 b2 hb
      exact Or.inl (hl.1 b1 hb1)

/-- When the walked indices are strictly increasing, no index originates
more than 6 pairs: within its own inner scan the counter allows at most 6
emissions, and no other iteration of the outer scan emits pairs with the
same first component. -/
theorem buildAux_countP (i : ℕ) (l : List (ℕ × Pt)) :
    (l.map Prod.fst).Pairwise (· < ·) →
      (buildAux l).countP (fun pr => pr.1 == i) ≤ 6 := by
  induction l with
  | nil => intro _; simp [buildAux]
  | cons hd rest ih =>
    intro hl
    obtain ⟨i2, p1⟩ := hd
    simp only [List.map_cons, List.pairwise_cons] at hl
    simp only [buildAux, List.countP_append]
    by_cases hii : i2 = i
    · subst hii
      have h1 : ((innerScan p1 rest 0).map fun j => (i2, j)).countP
          (fun pr => pr.1 == i2) ≤ 6 := by
        calc ((innerScan p1 rest 0).map fun j => (i2, j)).countP
              (fun pr => pr.1 == i2)
            ≤ ((innerScan p1 rest 0).map fun j => (i2, j)).length :=
              List.countP_le_length _
          _ = (innerScan p1 rest 0).length := List.length_map _ _
          _ ≤ 6 := by have := innerScan_length p1 rest 0 (by omega); omega
      have h2 : (buildAux rest).countP (fun pr => pr.1 == i2) = 0 := by
        rw [List.countP_eq_zero]
        intro a ha
        obtain ⟨a1, a2⟩ := a
        have : i2 < a1 := hl.1 a1 (mem_buildAux_fst rest a1 a2 ha)
        simp only [beq_iff_eq]
        omega
      omega
    · have h1 : ((innerScan p1 rest 0).map fun j => (i2, j)).countP
          (fun pr => pr.1 == i) = 0 := by
        rw [List.countP_eq_zero]
        intro a ha
        simp only [List.mem_map] at ha
        obtain ⟨j, _, rfl⟩ := ha
        simp only [beq_iff_eq]
        exact hii
      have h2 := ih hl.2
      omega

/-- The indices of an enumerated point list are strictly increasing. -/
theorem enum_fst_pairwise (pts : List Pt) :
    (pts.enum.map Prod.fst).Pairwise (· < ·) := by
  rw [List.enum_map_fst]
  exact List.pairwise_lt_range _

/-- The boolean proximity test agrees with the strict real Euclidean
distance comparison of the source. -/
theorem close_iff_eDist (p q : Pt) : close p q = true ↔ eDist p q < 15 := by
  rw [close, decide_eq_true_iff, eDist,
    Real.sqrt_lt' (by norm_num : (0 : ℝ) < 15)]
  constructor
  · intro h
    exact_mod_cast h
  · intro h
    exact_mod_cast h

/-- A concrete two-point configuration at distance 10, used to exercise the
builder theorems. -/
def ptsPair : List Pt :=
  [⟨0, 0, 0⟩, ⟨10, 0, 0⟩]

/-! ### Claims about the connection builder -/

/-- Claim C1: for every point index `i`, the number of connections
originated by `i` (pairs emitted with `i` as the lower index) is at most
`maxDegreePerPoint + 1 = 6`: the scan increments the per-`i` counter on
each emission and breaks only once the counter strictly exceeds 5. -/
theorem claim_C1 (pts : List Pt) (i : ℕ) :
    (buildConnections pts).countP (fun pr => pr.1 == i) ≤ 6 :=
  buildAux_countP i pts.enum (enum_fst_pairwise pts)

/-- Claim C2: every connection produced by the builder joins two valid
point indices whose Euclidean distance is strictly below the configured
`connectionDistance = 15`. -/
theorem claim_C2 (pts : List Pt) (i j : ℕ)
    (h : (i, j) ∈ buildConnections pts) :
    i < pts.length ∧ j < pts.length ∧
      eDist (pts.getD i ⟨0, 0, 0⟩) (pts.getD j ⟨0, 0, 0⟩) < 15 := by
  obtain ⟨p1, p2, h1, h2, hc⟩ := mem_buildAux pts.enum i j h
  rw [List.mk_mem_enum_iff_getElem?] at h1 h2
  obtain ⟨hi, _⟩ := List.getElem?_eq_some_iff.mp h1
  obtain ⟨hj, _⟩ := List.getElem?_eq_some_iff.mp h2
  refine ⟨hi, hj, ?_⟩
  have hgd1 : pts.getD i ⟨0, 0, 0⟩ = p1 := by
    rw [List.getD_eq_getElem?_getD, h1]
    rfl
  have hgd2 : pts.getD j ⟨0, 0, 0⟩ = p2 := by
    rw [List.getD_eq_getElem?_getD, h2]
    rfl
  rw [hgd1, hgd2]
  exact (close_iff_eDist p1 p2).mp hc

/-- Witness for claim C2: the two-point configuration at distance 10
produces the connection `(0, 1)`, and the theorem applies to it. -/
theorem claim_C2_witness :
    (0, 1) ∈ buildConnections ptsPair ∧
      (0 < ptsPair.length ∧ 1 < ptsPair.length ∧
        eDist (ptsPair.getD 0 ⟨0, 0, 0⟩) (ptsPair.getD 1 ⟨0, 0, 0⟩) < 15) :=
  ⟨by norm_num [buildConnections, ptsPair, List.enum, List.enumFrom, buildAux,
      innerScan, close, distSq],
    claim_C2 ptsPair 0 1 (by norm_num [buildConnections, ptsPair, List.enum,
      List.enumFrom, buildAux, innerScan, close, distSq])⟩

/-- Claim C5: the connection list is exactly the nested-scan order — the
emitted pairs are strictly increasing in the lexicographic order (outer
index ascending, inner index ascending within each outer index) — and the
builder is deterministic: rebuilding from an equal point list yields an
identical connection list. -/
theorem claim_C5 (pts : List Pt) :
    (buildConnections pts).Pairwise lexLt ∧
      ∀ pts2 : List Pt, pts2 = pts →
        buildConnections pts2 = buildConnections pts :=
  ⟨buildAux_pairwise pts.enum (enum_fst_pairwise pts),
    fun _ h => by rw [h]⟩

/-- Witness for claim C5 at the two-point configuration. -/
theorem claim_C5_witness :
    (buildConnections ptsPair).Pairwise lexLt ∧
      buildConnections ptsPair = buildConnections ptsPair :=
  ⟨(claim_C5 ptsPair).1, (claim_C5 ptsPair).2 ptsPair rfl⟩

/-- Claim C9: the builder never emits a self-connection nor a duplicate
pair: every emitted pair has its lower index strictly below its higher
index, and no unordered index pair appears twice. -/
theorem claim_C9 (pts : List Pt) :
    (∀ pr ∈ buildConnections pts, pr.1 < pr.2) ∧
      (buildConnections pts).Nodup := by
  have hpw := buildAux_pairwise pts.enum (enum_fst_pairwise pts)
  constructor
  · intro pr hpr
    obtain ⟨a, b⟩ := pr
    exact buildAux_fst_lt_snd pts.enum (enum_fst_pairwise pts) a b hpr
  · refine hpw.imp ?_
    intro a b hab heq
    subst heq
    rcases hab with h | ⟨_, h⟩ <;> omega

/-- Witness for claim C9 at the two-point configuration. -/
theorem claim_C9_witness :
    (0 : ℕ) < 1 ∧ (buildConnections ptsPair).Nodup :=
  ⟨(claim_C9 ptsPair).1 (0, 1) (by norm_num [buildConnections, ptsPair,
      List.enum, List.enumFrom, buildAux, innerScan, close, distSq]),
    (claim_C9 ptsPair).2⟩

/-! ### Claims about the camera controller and wheel handler -/

/-- Claim C3: the camera step updates each axis independently by
`newAxis = previousAxis + (desiredAxis - previousAxis) * 0.05` with
`desired.x = sin(angle) * targetRadius`, `desired.z = cos(angle) * targetRadius`,
`desired.y = pointerOffsetY` and `angle = time * 0.1 + pointerOffsetX * 0.01`;
at elapsed time 0, zero pointer offsets, target radius 80 and previous
position `(0, 0, 100)` the new position moves exactly 0.05 of the delta and
is strictly closer to `(0, 0, 80)` than the previous position. -/
theorem claim_C3 :
    (∀ (time mx my tr : ℝ) (p : ℝ × ℝ × ℝ),
        cameraStep time mx my tr p =
          (p.1 + (Real.sin (time * 0.1 + mx * 0.01) * tr - p.1) * 0.05,
           p.2.1 + (my - p.2.1) * 0.05,
           p.2.2 + (Real.cos (time * 0.1 + mx * 0.01) * tr - p.2.2) * 0.05)) ∧
      cameraStep 0 0 0 80 (0, 0, 100) =
        ((0 : ℝ), (0 : ℝ), (100 : ℝ) + (80 - 100) * 0.05) ∧
      dist3 (cameraStep 0 0 0 80 (0, 0, 100)) (0, 0, 80) <
        dist3 ((0 : ℝ), (0 : ℝ), (100 : ℝ)) (0, 0, 80) := by
  have hconcrete : cameraStep 0 0 0 80 ((0 : ℝ), (0 : ℝ), (100 : ℝ)) =
      ((0 : ℝ), (0 : ℝ), (99 : ℝ)) := by
    norm_num [cameraStep, smoothAxis, Real.sin_zero, Real.cos_zero]
  refine ⟨fun time mx my tr p => rfl, ?_, ?_⟩
  · rw [hconcrete]
    norm_num
  · rw [hconcrete]
    calc dist3 ((0 : ℝ), (0 : ℝ), (99 : ℝ)) (0, 0, 80)
        = Real.sqrt 361 := by norm_num [dist3]
      _ < Real.sqrt 400 := Real.sqrt_lt_sqrt (by norm_num) (by norm_num)
      _ = dist3 ((0 : ℝ), (0 : ℝ), (100 : ℝ)) (0, 0, 80) := by
          norm_num [dist3]

/-- Claim C8: the per-axis smoothing with factor 0.05 never overshoots: the
new axis value lies between the previous and the desired value (inclusive),
and whenever they differ the new value is strictly closer to the desired
value than the previous one. -/
theorem claim_C8 (prev des : ℝ) :
    (min prev des ≤ smoothAxis prev des ∧ smoothAxis prev des ≤ max prev des) ∧
      (prev ≠ des → |smoothAxis prev des - des| < |prev - des|) := by
  have hdef : smoothAxis prev des = prev + (des - prev) * 0.05 := rfl
  constructor
  · constructor
    · rcases le_total prev des with h | h
      · rw [min_eq_left h]
        nlinarith
      · rw [min_eq_right h]
        nlinarith
    · rcases le_total prev des with h | h
      · rw [max_eq_right h]
        nlinarith
      · rw [max_eq_left h]
        nlinarith
  · intro hne
    have h1 : smoothAxis prev des - des = (prev - des) * 0.95 := by
      rw [hdef]
      ring
    have h3 : 0 < |prev - des| := abs_pos.mpr (sub_ne_zero.mpr hne)
    rw [h1, abs_mul]
    have h2 : |(0.95 : ℝ)| = 0.95 := by norm_num
    rw [h2]
    nlinarith

/-- Witness for claim C8 at `prev = 0`, `des = 1`. -/
theorem claim_C8_witness :
    |smoothAxis 0 1 - 1| < |(0 : ℝ) - 1| :=
  (claim_C8 0 1).2 (by norm_num)

/-- A single wheel update always lands in the clamp range. -/
theorem wheelUpdate_mem (tr dy : ℚ) :
    20 ≤ wheelUpdate tr dy ∧ wheelUpdate tr dy ≤ 200 := by
  unfold wheelUpdate
  refine ⟨le_max_left _ _, max_le (by norm_num) (min_le_left _ _)⟩

/-- Folding any sequence of wheel events over an in-range radius stays in
range. -/
theorem wheel_foldl (ds : List ℚ) :
    ∀ tr : ℚ, 20 ≤ tr → tr ≤ 200 →
      20 ≤ ds.foldl wheelUpdate tr ∧ ds.foldl wheelUpdate tr ≤ 200 := by
  induction ds with
  | nil => intro tr h1 h2; exact ⟨h1, h2⟩
  | cons d ds ih =>
    intro tr _ _
    simp only [List.foldl_cons]
    exact ih (wheelUpdate tr d) (wheelUpdate_mem tr d).1 (wheelUpdate_mem tr d).2

/-- Claim C4: after any single wheel event the target radius lies in
`[20, 200]`; every sequence of wheel events starting from the initial value
80 stays in `[20, 200]`; and a `deltaY = -1000` event at radius 80 yields
exactly 20. -/
theorem claim_C4 :
    (∀ tr dy : ℚ, 20 ≤ wheelUpdate tr dy ∧ wheelUpdate tr dy ≤ 200) ∧
      (∀ ds : List ℚ, 20 ≤ ds.foldl wheelUpdate 80 ∧
        ds.foldl wheelUpdate 80 ≤ 200) ∧
      wheelUpdate 80 (-1000) = 20 := by
  refine ⟨wheelUpdate_mem,
    fun ds => wheel_foldl ds 80 (by norm_num) (by norm_num), ?_⟩
  norm_num [wheelUpdate]

/-! ### Claims about the point sampler -/

/-- The magnitude of a spherical sample is exactly its radial coordinate
`40 * cbrt(u1)`, which is at most 40 for a unit draw `u1`. -/
theorem samplePos_norm3 (u1 u2 u3 : ℝ) (h0 : 0 ≤ u1) (h1 : u1 < 1) :
    norm3 (samplePos u1 u2 u3) = 40 * u1 ^ ((1 : ℝ) / 3) ∧
      norm3 (samplePos u1 u2 u3) ≤ 40 := by
  have hr0 : 0 ≤ 40 * u1 ^ ((1 : ℝ) / 3) := by positivity
  have hr40 : 40 * u1 ^ ((1 : ℝ) / 3) ≤ 40 := by
    nlinarith [Real.rpow_le_one h0 (le_of_lt h1) (by norm_num : (0 : ℝ) ≤ 1 / 3)]
  have hsum : (samplePos u1 u2 u3).1 ^ 2 + (samplePos u1 u2 u3).2.1 ^ 2 +
      (samplePos u1 u2 u3).2.2 ^ 2 = (40 * u1 ^ ((1 : ℝ) / 3)) ^ 2 := by
    have ht := Real.sin_sq_add_cos_sq (u2 * Real.pi * 2)
    have hp := Real.sin_sq_add_cos_sq (Real.arccos (2 * u3 - 1))
    show (40 * u1 ^ ((1 : ℝ) / 3) * Real.sin (Real.arccos (2 * u3 - 1)) *
          Real.cos (u2 * Real.pi * 2)) ^ 2 +
        (40 * u1 ^ ((1 : ℝ) / 3) * Real.sin (Real.arccos (2 * u3 - 1)) *
          Real.sin (u2 * Real.pi * 2)) ^ 2 +
        (40 * u1 ^ ((1 : ℝ) / 3) * Real.cos (Real.arccos (2 * u3 - 1))) ^ 2 =
        (40 * u1 ^ ((1 : ℝ) / 3)) ^ 2
    linear_combination
      ((40 * u1 ^ ((1 : ℝ) / 3)) ^ 2 *
        Real.sin (Real.arccos (2 * u3 - 1)) ^ 2) * ht +
      (40 * u1 ^ ((1 : ℝ) / 3)) ^ 2 * hp
  have hnorm : norm3 (samplePos u1 u2 u3) = 40 * u1 ^ ((1 : ℝ) / 3) := by
    rw [norm3, hsum, Real.sqrt_sq hr0]
  exact ⟨hnorm, hnorm ▸ hr40⟩

/-- Claim C6: the magnitude of a sampled position before vertical
flattening equals its radial coordinate `40 * cbrt(u1)` and is at most the
configured sphere radius 40. -/
theorem claim_C6 (u1 u2 u3 : ℝ) (h0 : 0 ≤ u1) (h1 : u1 < 1) :
    norm3 (samplePos u1 u2 u3) = 40 * u1 ^ ((1 : ℝ) / 3) ∧
      norm3 (samplePos u1 u2 u3) ≤ 40 :=
  samplePos_norm3 u1 u2 u3 h0 h1

/-- Witness for claim C6 at the draws `u1 = u2 = u3 = 0`. -/
theorem claim_C6_witness :
    norm3 (samplePos 0 0 0) = 40 * (0 : ℝ) ^ ((1 : ℝ) / 3) ∧
      norm3 (samplePos 0 0 0) ≤ 40 :=
  claim_C6 0 0 0 (le_refl 0) (by norm_num)

/-- Claim C10: the vertical flattening `y *= 0.6` never increases a
generated point's distance from the origin, so the flattened position still
has magnitude at most 40. -/
theorem claim_C10 (u1 u2 u3 : ℝ) (h0 : 0 ≤ u1) (h1 : u1 < 1) :
    norm3 (genPoint u1 u2 u3) ≤ norm3 (samplePos u1 u2 u3) ∧
      norm3 (genPoint u1 u2 u3) ≤ 40 := by
  have hmono : norm3 (genPoint u1 u2 u3) ≤ norm3 (samplePos u1 u2 u3) := by
    show Real.sqrt ((samplePos u1 u2 u3).1 ^ 2 +
        ((samplePos u1 u2 u3).2.1 * 0.6) ^ 2 +
        (samplePos u1 u2 u3).2.2 ^ 2) ≤
      Real.sqrt ((samplePos u1 u2 u3).1 ^ 2 +
        (samplePos u1 u2 u3).2.1 ^ 2 + (samplePos u1 u2 u3).2.2 ^ 2)
    apply Real.sqrt_le_sqrt
    nlinarith [sq_nonneg (samplePos u1 u2 u3).2.1]
  exact ⟨hmono, le_trans hmono (samplePos_norm3 u1 u2 u3 h0 h1).2⟩

/-- Witness for claim C10 at the draws `u1 = u2 = u3 = 0`. -/
theorem claim_C10_witness :
    norm3 (genPoint 0 0 0) ≤ norm3 (samplePos 0 0 0) ∧
      norm3 (genPoint 0 0 0) ≤ 40 :=
  claim_C10 0 0 0 (le_refl 0) (by norm_num)

/-- Claim C7: the color category is a function of one uniform draw with
exactly the thresholds 0.9 and 0.6 tested in that order — Rare for
`u > 0.9`, Accent for `0.6 < u ≤ 0.9`, Base for `u ≤ 0.6` — and the size
draw is scaled into `[1, 3]`. -/
theorem claim_C7 (u : ℚ) :
    (colorCategory u = ColorCategory.Rare ↔ 0.9 < u) ∧
      (colorCategory u = ColorCategory.Accent ↔ 0.6 < u ∧ u ≤ 0.9) ∧
      (colorCategory u = ColorCategory.Base ↔ u ≤ 0.6) ∧
      (0 ≤ u → u ≤ 1 → 1 ≤ pointSize u ∧ pointSize u ≤ 3) := by
  have hsize : 0 ≤ u → u ≤ 1 → 1 ≤ pointSize u ∧ pointSize u ≤ 3 := by
    intro ha hb
    unfold pointSize
    constructor <;> linarith
  unfold colorCategory
  split_ifs with h9 h6
  · refine ⟨iff_of_true rfl h9, ?_, ?_, hsize⟩
    · exact iff_of_false (by decide) (fun hc => absurd h9 (not_lt.mpr hc.2))
    · exact iff_of_false (by decide)
        (fun hle => absurd h9 (not_lt.mpr (le_trans hle (by norm_num))))
  · refine ⟨iff_of_false (by decide) h9,
      iff_of_true rfl ⟨h6, not_lt.mp h9⟩,
      iff_of_false (by decide) (not_le.mpr h6), hsize⟩
  · refine ⟨iff_of_false (by decide) h9, ?_,
      iff_of_true rfl (not_lt.mp h6), hsize⟩
    exact iff_of_false (by decide) (fun hc => h6 hc.1)

/-- Witness for claim C7 at the draw `u = 1/2`. -/
theorem claim_C7_witness :
    1 ≤ pointSize (1 / 2) ∧ pointSize (1 / 2) ≤ 3 :=
  (claim_C7 (1 / 2)).2.2.2 (by norm_num) (by norm_num)
